import Mathlib

/-!
Verification of the time-tracker program (`main.py`).

The development shallowly embeds the program's data model and operations:

* task-label normalisation and parsing (`parse_task_input`, Python
  `str.strip` / `str.lower` modelled character-wise over `String.data`);
* the task tree built by `update_tree` (a Python dict of
  `{label: {"count": n, "children": {...}}}` becomes an insertion-ordered
  association list inside the inductive `TaskTree`);
* the percentage reporter `print_tree` (print effects collected as a list
  of `(indent, label, percentage, count)` records);
* the interactive recorder `record_day` / updater `update_day`
  (`input()` responses modelled as a stream `Nat → String`; the schedule
  that `save_schedule` persists is the function's result);
* the period scanner `analyze_period` (directory listing modelled as a
  list of `(filename, parsed JSON schedule)` pairs, `datetime.strptime`
  on `%Y-%m-%d` modelled by `parseDate`, dates compared via their
  proleptic-Gregorian ordinal).

All definitions are computable and reduce in the kernel, so concrete runs
are checked by `rfl`/`decide`.
-/

namespace TimeTracker

/-! ### Python string primitives -/

/-- The whitespace characters stripped by Python's `str.strip()`. -/
def pySpace (c : Char) : Bool :=
  (c == ' ') || (c == '\t') || (c == '\n') || (c == '\r') || (c == '\x0b') || (c == '\x0c')

/-- Drop leading whitespace from a character list. -/
def dropLeadSpace : List Char → List Char
  | [] => []
  | c :: cs => if pySpace c then dropLeadSpace cs else c :: cs

/-- Python `s.strip()`: remove leading and trailing whitespace. -/
def pyStrip (s : String) : String :=
  ⟨dropLeadSpace (dropLeadSpace s.data.reverse).reverse⟩

/-- ASCII lower-casing of one character, as Python `str.lower()` acts on ASCII. -/
def pyLowerChar (c : Char) : Char :=
  if 65 ≤ c.toNat ∧ c.toNat ≤ 90 then Char.ofNat (c.toNat + 32) else c

/-- Python `s.lower()` (restricted to ASCII case mapping). -/
def pyLower (s : String) : String := ⟨s.data.map pyLowerChar⟩

/-- Split a character list on a separator character (Python `str.split(sep)`). -/
def splitOnChar (sep : Char) : List Char → List (List Char)
  | [] => [[]]
  | c :: cs =>
    let r := splitOnChar sep cs
    if c == sep then [] :: r
    else
      match r with
      | [] => [[c]]
      | g :: gs => (c :: g) :: gs

/-- `parse_task_input` from `main.py`:
`[s.strip() for s in task_str.split(":") if s.strip()]`. -/
def parse_task_input (task_str : String) : List String :=
  ((splitOnChar ':' task_str.data).map (fun cs => pyStrip ⟨cs⟩)).filter
    (fun t => t ≠ "")

/-! ### The task tree (`update_tree` in `main.py`)

A Python dict `{task_name: {"count": int, "children": {...}}}` is modelled
as an insertion-ordered association list: looking a key up scans from the
front, and a newly created key is appended at the back, exactly as Python
dicts behave. -/

inductive TaskTree where
  | mk : List (String × Nat × TaskTree) → TaskTree

/-- The association list held by a tree node mapping. -/
def TaskTree.entries : TaskTree → List (String × Nat × TaskTree)
  | .mk es => es

/-- Dict lookup: first entry whose key matches. -/
def lookupEntry : List (String × Nat × TaskTree) → String → Option (Nat × TaskTree)
  | [], _ => none
  | (k, c, ch) :: es, key => if k = key then some (c, ch) else lookupEntry es key

/-- Dict write: replace the entry for `key` in place, or append a new
entry at the back when `key` is absent (Python dict insertion order). -/
def setEntry : List (String × Nat × TaskTree) → String → Nat → TaskTree →
    List (String × Nat × TaskTree)
  | [], key, c, ch => [(key, c, ch)]
  | (k, c0, ch0) :: es, key, c, ch =>
    if k = key then (key, c, ch) :: es
    else (k, c0, ch0) :: setEntry es key c ch

/-- `tasks[0].strip().lower()` from `update_tree`. -/
def normLabel (s : String) : String := pyLower (pyStrip s)

/-- `update_tree(tree, tasks)` from `main.py`: if `tasks` is empty return
the tree unchanged; otherwise ensure a node for the normalised head label
exists, increment its count, and recurse into its children with the tail. -/
def updateTree : TaskTree → List String → TaskTree
  | t, [] => t
  | t, task :: rest =>
    let key := normLabel task
    let p := (lookupEntry t.entries key).getD (0, TaskTree.mk [])
    TaskTree.mk (setEntry t.entries key (p.1 + 1) (updateTree p.2 rest))

/-- The count stored at the node reached by following the (already
normalised) key path `p` from the root; `0` when no such node exists. -/
def countAt : TaskTree → List String → Nat
  | _, [] => 0
  | .mk es, k :: p =>
    match lookupEntry es k with
    | none => 0
    | some (c, ch) => if p = [] then c else countAt ch p

/-- The `(count, children)` pair of the node at key path `p`, if present. -/
def subtreeAt : TaskTree → List String → Option (Nat × TaskTree)
  | _, [] => none
  | .mk es, k :: p =>
    match lookupEntry es k with
    | none => none
    | some (c, ch) => if p = [] then some (c, ch) else subtreeAt ch p

/-- Sum of the counts stored at one level of the tree. -/
def sumCounts : List (String × Nat × TaskTree) → Nat
  | [] => 0
  | (_, c, _) :: es => c + sumCounts es

/-- Sum of the root-level counts of a tree. -/
def rootSum (t : TaskTree) : Nat := sumCounts t.entries

/-- `a.strip().lower()` applied to each label of a task list: the key path
`update_tree` walks for that list. -/
def normPath (tasks : List String) : List String := tasks.map normLabel

/-- `alongPath p q` holds when `p` is an initial segment of the path `q`. -/
def alongPath : List String → List String → Bool
  | [], _ => true
  | _ :: _, [] => false
  | a :: as, b :: bs => (a == b) && alongPath as bs

/-- Aggregating a sequence of task lists into an initially empty tree by
calling `update_tree` once per list, in order. -/
def buildTree (seqs : List (List String)) : TaskTree :=
  seqs.foldl updateTree (TaskTree.mk [])

/-! ### The reporter (`print_tree` in `main.py`) -/

/-- `(data["count"] / parent_count) * 100 if parent_count > 0 else 0`,
computed over the rationals. -/
def percOf (count parentCount : Nat) : ℚ :=
  if parentCount > 0 then ((count : ℚ) / (parentCount : ℚ)) * 100 else 0

/-- The lines printed by `print_tree`, one `(indent, label, percentage,
count)` record per printed line, in print order: each node is followed by
its children's block (indent extended by `"    - "`, parent count set to
the node's count), then by its later siblings. -/
def printEntries : List (String × Nat × TaskTree) → Nat → String →
    List (String × String × ℚ × Nat)
  | [], _, _ => []
  | (task, c, .mk ces) :: es, pc, ind =>
    (ind, task, percOf c pc, c) ::
      ((if ces.isEmpty then [] else printEntries ces c (ind ++ "    - ")) ++
        printEntries es pc ind)

/-- `print_tree(tree, parent_count, indent)` from `main.py`. -/
def printTree (t : TaskTree) (parentCount : Nat) (indent : String) :
    List (String × String × ℚ × Nat) :=
  printEntries t.entries parentCount indent

/-! ### Recording a day (`record_day` in `main.py`) -/

/-- `INTERVAL_MINUTES` from `main.py`. -/
def INTERVAL_MINUTES : Nat := 15

/-- `INTERVALS_PER_DAY` from `main.py`. -/
def INTERVALS_PER_DAY : Nat := 96

/-- Minutes past midnight of `START_TIME_STR = "07:00"`. -/
def START_MINUTES : Nat := 7 * 60

/-- A decimal digit character. -/
def digitChar (n : Nat) : Char := Char.ofNat (48 + n)

/-- Two-digit zero-padded decimal rendering (`%H` / `%M` of `strftime`). -/
def pad2 (n : Nat) : String := ⟨[digitChar (n / 10), digitChar (n % 10)]⟩

/-- `strftime('%H:%M')` of a time `m` minutes after midnight of the start
day (the `datetime` rolls over past midnight, hence the `% 24`). -/
def hhmm (m : Nat) : String := pad2 ((m / 60) % 24) ++ ":" ++ pad2 (m % 60)

/-- The `"HH:MM-HH:MM"` string for interval number `i` of the day, as
produced from `get_intervals_for_day`. -/
def timeSlot (i : Nat) : String :=
  hhmm (START_MINUTES + INTERVAL_MINUTES * i) ++ "-" ++
    hhmm (START_MINUTES + INTERVAL_MINUTES * (i + 1))

/-- One schedule entry `{"time_slot": ..., "task": [...]}`. -/
structure Entry where
  time_slot : String
  task : List String
deriving DecidableEq

/-- The `for idx in range(current_index, total_intervals)` loop of
`record_day`, iterating over the remaining interval indices.  `inputs j`
is the string the user answers at the prompt for interval `j` (each
iteration consumes exactly one `input()`).  `"sleep"` records the current
interval and all remaining ones as `["sleep"]` and breaks; `"exit"`
breaks; anything else appends the parsed task list and continues. -/
def recordLoop (inputs : Nat → String) : List Nat → List Entry → List Entry
  | [], sched => sched
  | idx :: restIdx, sched =>
    let taskInput := pyStrip (inputs idx)
    if pyLower taskInput = "sleep" then
      (sched ++ [⟨timeSlot idx, ["sleep"]⟩]) ++
        restIdx.map (fun j => ⟨timeSlot j, ["sleep"]⟩)
    else if pyLower taskInput = "exit" then
      sched
    else
      recordLoop inputs restIdx (sched ++ [⟨timeSlot idx, parse_task_input taskInput⟩])

/-- `record_day`: when a schedule file with entries exists, resume at
`current_index = len(schedule)`; otherwise start fresh.  The returned list
is the `"schedule"` field of the data handed to `save_schedule`. -/
def recordDay (existing : Option (List Entry)) (inputs : Nat → String) : List Entry :=
  match existing with
  | some sched =>
    recordLoop inputs (List.range' sched.length (INTERVALS_PER_DAY - sched.length)) sched
  | none => recordLoop inputs (List.range' 0 INTERVALS_PER_DAY) []

/-! ### Updating a day (`update_day` in `main.py`) -/

/-- The persisted day document `{"date": ..., "start_time": ...,
"schedule": [...]}`. -/
structure DaySchedule where
  date : String
  start_time : String
  schedule : List Entry
deriving DecidableEq

/-- The `for idx, item in enumerate(schedule)` loop of `update_day`:
a non-empty stripped input replaces the item's task list with the parsed
value, an empty one keeps the item. -/
def updateDayLoop (inputs : Nat → String) : Nat → List Entry → List Entry
  | _, [] => []
  | idx, item :: rest =>
    let newInput := pyStrip (inputs idx)
    (if newInput ≠ "" then { item with task := parse_task_input newInput } else item) ::
      updateDayLoop inputs (idx + 1) rest

/-- `update_day`: missing file prints a message and saves nothing;
otherwise the re-prompted schedule is saved back into the same document. -/
def updateDay (inputs : Nat → String) (data : Option DaySchedule) : Option DaySchedule :=
  match data with
  | none => none
  | some d => some { d with schedule := updateDayLoop inputs 0 d.schedule }

/-! ### Period analysis (`analyze_period` in `main.py`) -/

/-- The `"task"` field of a stored schedule item: either a bare string or
a list of strings (`isinstance(tasks, list)` check in `analyze_period`). -/
inductive TaskField where
  | str : String → TaskField
  | list : List String → TaskField
deriving DecidableEq

/-- `if not isinstance(tasks, list): tasks = [tasks]`. -/
def taskToList : TaskField → List String
  | .str s => [s]
  | .list l => l

/-- Python `name.endswith(suffix)`. -/
def strEndsWith (s suffix : String) : Bool :=
  s.data.reverse.take suffix.data.length == suffix.data.reverse

/-- Python `filename[:-5]`, removing the 5-character `".json"` extension. -/
def dropExt5 (s : String) : String := ⟨s.data.take (s.data.length - 5)⟩

/-- Is `c` one of `'0'..'9'`? -/
def isDigitChar (c : Char) : Bool := ('0' ≤ c) && (c ≤ '9')

/-- Decimal value of a digit string. -/
def digitsToNat (cs : List Char) : Nat :=
  cs.foldl (fun n c => 10 * n + (c.toNat - 48)) 0

/-- Gregorian leap year. -/
def isLeap (y : Nat) : Bool := (y % 4 == 0 && y % 100 != 0) || y % 400 == 0

/-- Length of month `m` of year `y`. -/
def daysInMonth (y m : Nat) : Nat :=
  if m = 2 then (if isLeap y then 29 else 28)
  else if m = 4 ∨ m = 6 ∨ m = 9 ∨ m = 11 then 30
  else 31

/-- `datetime.strptime(s, "%Y-%m-%d")`, `None` on `ValueError`: exactly
three dash-separated digit groups, a 4-digit year ≥ 1, a 1–2 digit month
`1..12`, a 1–2 digit day valid for that month. -/
def parseDate (s : String) : Option (Nat × Nat × Nat) :=
  match splitOnChar '-' s.data with
  | [ys, ms, ds] =>
    if ys.length = 4 ∧ ys.all isDigitChar ∧
        1 ≤ ms.length ∧ ms.length ≤ 2 ∧ ms.all isDigitChar ∧
        1 ≤ ds.length ∧ ds.length ≤ 2 ∧ ds.all isDigitChar then
      let y := digitsToNat ys
      let m := digitsToNat ms
      let d := digitsToNat ds
      if 1 ≤ y ∧ 1 ≤ m ∧ m ≤ 12 ∧ 1 ≤ d ∧ d ≤ daysInMonth y m then
        some (y, m, d)
      else none
    else none
  | _ => none

/-- Days before January 1st of year `y` in the proleptic Gregorian
calendar (`date.toordinal` support). -/
def daysBeforeYear (y : Nat) : Nat :=
  let n := y - 1
  n * 365 + n / 4 + n / 400 - n / 100

/-- Days before the first of month `m` within year `y`. -/
def daysBeforeMonth (y m : Nat) : Nat :=
  (List.range (m - 1)).foldl (fun a i => a + daysInMonth y (i + 1)) 0

/-- `date(y, m, d).toordinal()`: used to compare file dates with the
analysis window, since `datetime` comparison and `timedelta` subtraction
are exact on day ordinals. -/
def toOrdinal (y m d : Nat) : Nat := daysBeforeYear y + daysBeforeMonth y m + d

/-- One iteration of `for filename in os.listdir(RECORDS_DIR)`: a file
contributes its schedule items (one `total_intervals` tick and one
`update_tree` call per item) exactly when its name ends in `".json"`, the
rest of the name parses as a date, and that date lies in `[lo, hi]`. -/
def scanStep (lo hi : Int) (acc : Nat × TaskTree) (file : String × List TaskField) :
    Nat × TaskTree :=
  if strEndsWith file.1 ".json" then
    match parseDate (dropExt5 file.1) with
    | none => acc
    | some (y, m, d) =>
      if lo ≤ (toOrdinal y m d : Int) ∧ (toOrdinal y m d : Int) ≤ hi then
        file.2.foldl (fun a task => (a.1 + 1, updateTree a.2 (taskToList task))) acc
      else acc
  else acc

/-- The whole directory scan of `analyze_period`, accumulating
`(total_intervals, task_tree)` from `(0, {})`. -/
def scanFiles (files : List (String × List TaskField)) (lo hi : Int) : Nat × TaskTree :=
  files.foldl (scanStep lo hi) (0, TaskTree.mk [])

/-- The `week`/`month` dispatch at the top of `analyze_period`. -/
def periodDays (period : String) : Option Nat :=
  let p := pyLower period
  if p = "week" then some 7 else if p = "month" then some 30 else none

/-- Observable outcome of `analyze_period`. -/
inductive AnalyzeResult where
  | unknownPeriod : AnalyzeResult
  | noData : AnalyzeResult
  | report : TaskTree → Nat → AnalyzeResult

/-- Whether `create_visualizations` is invoked on this outcome: it is
called exactly when the analysis prints a report. -/
def chartCalled : AnalyzeResult → Bool
  | .report _ _ => true
  | _ => false

/-- `analyze_period(period)`, with today's date given as its ordinal and
the records directory given as a list of `(filename, schedule items)`.
`start_date = today - timedelta(days=days - 1)`; files dated within
`[start_date, today]` are tallied; a zero total prints "No schedule data
found" and returns before any chart is produced. -/
def analyzePeriod (period : String) (todayOrd : Nat)
    (files : List (String × List TaskField)) : AnalyzeResult :=
  match periodDays period with
  | none => .unknownPeriod
  | some days =>
    let lo : Int := (todayOrd : Int) - ((days : Int) - 1)
    let hi : Int := (todayOrd : Int)
    let res := scanFiles files lo hi
    if res.1 = 0 then .noData else .report res.2 res.1

/-! ### Lemmas about the tree operations -/

theorem lookup_setEntry (es : List (String × Nat × TaskTree)) (key k : String)
    (c : Nat) (ch : TaskTree) :
    lookupEntry (setEntry es key c ch) k =
      if k = key then some (c, ch) else lookupEntry es k := by
  induction es with
  | nil =>
    rcases eq_or_ne k key with h | h
    · subst h; simp [setEntry, lookupEntry]
    · simp [setEntry, lookupEntry, h, Ne.symm h]
  | cons e es ih =>
    obtain ⟨k0, c0, ch0⟩ := e
    rcases eq_or_ne k0 key with h0 | h0
    · subst h0
      rcases eq_or_ne k k0 with h | h
      · subst h; simp [setEntry, lookupEntry]
      · simp [setEntry, lookupEntry, h, Ne.symm h]
    · rcases eq_or_ne k0 k with h | h
      · subst h
        simp [setEntry, lookupEntry, h0, Ne.symm h0]
      · simp [setEntry, lookupEntry, h0, h, ih]

theorem countAt_mkNil (p : List String) : countAt (TaskTree.mk []) p = 0 := by
  cases p <;> simp [countAt, lookupEntry]

/-- Core characterisation of `update_tree`: one call increments by exactly
one the count of every node along the normalised label path (every
non-empty initial segment of `normPath tasks`), and leaves every other
count — in particular every count when `tasks` is empty — unchanged. -/
theorem countAt_updateTree (tasks : List String) (t : TaskTree) (p : List String) :
    countAt (updateTree t tasks) p =
      countAt t p +
        (if p ≠ [] ∧ alongPath p (normPath tasks) = true then 1 else 0) := by
  induction tasks generalizing t p with
  | nil =>
    cases p with
    | nil => simp [updateTree, countAt]
    | cons k p' => simp [updateTree, normPath, alongPath]
  | cons task rest ih =>
    obtain ⟨es⟩ := t
    cases p with
    | nil => simp [countAt]
    | cons k p' =>
      simp only [updateTree, TaskTree.entries, countAt, lookup_setEntry, normPath,
        List.map_cons, alongPath]
      rcases eq_or_ne k (normLabel task) with hk | hk
      · subst hk
        simp only [if_pos rfl]
        cases hl : lookupEntry es (normLabel task) with
        | none =>
          cases p' with
          | nil => simp [hl, countAt, alongPath, normPath]
          | cons x p'' =>
            simp [hl, ih, countAt, alongPath, normPath, lookupEntry]
        | some q =>
          obtain ⟨c1, ch1⟩ := q
          cases p' with
          | nil => simp [hl, countAt, alongPath, normPath]
          | cons x p'' =>
            simp [hl, ih, countAt, alongPath, normPath]
      · simp only [if_neg hk]
        have hbeq : (k == normLabel task) = false := by
          simpa using hk
        cases p' with
        | nil =>
          cases hl : lookupEntry es k <;> simp [hl, countAt, hbeq]
        | cons x p'' =>
          cases hl : lookupEntry es k with
          | none => simp [hl, countAt, hbeq]
          | some q => obtain ⟨c1, ch1⟩ := q; simp [hl, countAt, hbeq]

theorem lookup_mem {es : List (String × Nat × TaskTree)} {k : String} {c : Nat}
    {ch : TaskTree} (h : lookupEntry es k = some (c, ch)) : (k, c, ch) ∈ es := by
  induction es with
  | nil => simp [lookupEntry] at h
  | cons e es ih =>
    obtain ⟨k0, c0, ch0⟩ := e
    by_cases h0 : k0 = k
    · subst h0
      simp only [lookupEntry, if_pos rfl, Option.some.injEq, Prod.mk.injEq] at h
      obtain ⟨rfl, rfl⟩ := h
      exact List.mem_cons_self _ _
    · simp only [lookupEntry, if_neg h0] at h
      exact List.mem_cons_of_mem _ (ih h)

theorem mem_setEntry {es : List (String × Nat × TaskTree)} {key k : String}
    {c c' : Nat} {ch ch' : TaskTree} (h : (k, c, ch) ∈ setEntry es key c' ch') :
    (k, c, ch) ∈ es ∨ (k = key ∧ c = c' ∧ ch = ch') := by
  induction es with
  | nil =>
    simp only [setEntry, List.mem_singleton, Prod.mk.injEq] at h
    exact Or.inr h
  | cons e0 es ih =>
    obtain ⟨k0, c0, ch0⟩ := e0
    by_cases h0 : k0 = key
    · simp only [setEntry, if_pos h0, List.mem_cons, Prod.mk.injEq] at h
      rcases h with h | h
      · exact Or.inr h
      · exact Or.inl (List.mem_cons_of_mem _ h)
    · simp only [setEntry, if_neg h0, List.mem_cons, Prod.mk.injEq] at h
      rcases h with h | h
      · exact Or.inl (List.mem_cons.mpr (Or.inl (by simp [h])))
      · rcases ih h with h | h
        · exact Or.inl (List.mem_cons_of_mem _ h)
        · exact Or.inr h

theorem mem_le_sumCounts {es : List (String × Nat × TaskTree)} {k : String}
    {c : Nat} {ch : TaskTree} (h : (k, c, ch) ∈ es) : c ≤ sumCounts es := by
  induction es with
  | nil => simp at h
  | cons e es ih =>
    obtain ⟨k0, c0, ch0⟩ := e
    rcases List.mem_cons.mp h with h | h
    · simp only [Prod.mk.injEq] at h
      obtain ⟨-, rfl, -⟩ := h
      simp [sumCounts]
    · have := ih h
      simp only [sumCounts]
      omega

theorem sumCounts_setEntry (es : List (String × Nat × TaskTree)) (key : String)
    (ch : TaskTree) :
    sumCounts (setEntry es key (((lookupEntry es key).getD (0, TaskTree.mk [])).1 + 1) ch) =
      sumCounts es + 1 := by
  induction es with
  | nil => simp [setEntry, sumCounts, lookupEntry]
  | cons e es ih =>
    obtain ⟨k0, c0, ch0⟩ := e
    by_cases h0 : k0 = key
    · subst h0
      simp [lookupEntry, setEntry, sumCounts]
      omega
    · simp only [lookupEntry, if_neg h0, setEntry, sumCounts, ih]
      omega

/-- A single `update_tree` call adds one to the sum of root-level counts,
except when the task list is empty. -/
theorem rootSum_updateTree (tasks : List String) (t : TaskTree) :
    rootSum (updateTree t tasks) = rootSum t + (if tasks = [] then 0 else 1) := by
  cases tasks with
  | nil => simp [updateTree]
  | cons task rest =>
    obtain ⟨es⟩ := t
    simp [updateTree, rootSum, TaskTree.entries, sumCounts_setEntry]

/-- The invariant that every node's count dominates the sum of its
children's counts, at every depth of the tree. -/
inductive Wf : TaskTree → Prop where
  | mk : ∀ (es : List (String × Nat × TaskTree)),
      (∀ k c ch, (k, c, ch) ∈ es → rootSum ch ≤ c) →
      (∀ k c ch, (k, c, ch) ∈ es → Wf ch) → Wf (TaskTree.mk es)

theorem wf_mkNil : Wf (TaskTree.mk []) :=
  Wf.mk [] (by simp) (by simp)

theorem wf_updateTree (tasks : List String) (t : TaskTree) (h : Wf t) :
    Wf (updateTree t tasks) := by
  induction tasks generalizing t with
  | nil => simpa [updateTree] using h
  | cons task rest ih =>
    obtain ⟨es⟩ := t
    cases h with
    | mk _ hsum hwf =>
      have hch0 : Wf (((lookupEntry es (normLabel task)).getD (0, TaskTree.mk [])).2) := by
        cases hl : lookupEntry es (normLabel task) with
        | none => simpa [hl] using wf_mkNil
        | some q =>
          obtain ⟨c1, ch1⟩ := q
          simpa [hl] using hwf _ _ _ (lookup_mem hl)
      have hc0 : rootSum (((lookupEntry es (normLabel task)).getD (0, TaskTree.mk [])).2) ≤
          ((lookupEntry es (normLabel task)).getD (0, TaskTree.mk [])).1 := by
        cases hl : lookupEntry es (normLabel task) with
        | none => simp [hl, rootSum, sumCounts]
        | some q =>
          obtain ⟨c1, ch1⟩ := q
          simpa [hl] using hsum _ _ _ (lookup_mem hl)
      simp only [updateTree, TaskTree.entries]
      refine Wf.mk _ ?_ ?_ <;> intro k c ch hmem <;>
        rcases mem_setEntry hmem with hm | hm
      · exact hsum _ _ _ hm
      · obtain ⟨rfl, rfl, rfl⟩ := hm
        rw [rootSum_updateTree]
        have : (if rest = [] then 0 else 1) ≤ 1 := by split <;> omega
        omega
      · exact hwf _ _ _ hm
      · obtain ⟨rfl, rfl, rfl⟩ := hm
        exact ih _ hch0

/-- Every node reached by a path in a well-formed tree satisfies the
sum-domination invariant and is itself well-formed. -/
theorem wf_subtreeAt (p : List String) (t : TaskTree) (h : Wf t) (c : Nat)
    (ch : TaskTree) (hs : subtreeAt t p = some (c, ch)) :
    rootSum ch ≤ c ∧ Wf ch := by
  induction p generalizing t with
  | nil => simp [subtreeAt] at hs
  | cons k p' ih =>
    obtain ⟨es⟩ := t
    cases h with
    | mk _ hsum hwf =>
      cases hl : lookupEntry es k with
      | none => simp [subtreeAt, hl] at hs
      | some q =>
        obtain ⟨c1, ch1⟩ := q
        have hmem := lookup_mem hl
        cases p' with
        | nil =>
          simp only [subtreeAt, hl, if_pos rfl, Option.some.injEq, Prod.mk.injEq] at hs
          obtain ⟨rfl, rfl⟩ := hs
          exact ⟨hsum _ _ _ hmem, hwf _ _ _ hmem⟩
        | cons x p'' =>
          simp only [subtreeAt, hl] at hs
          exact ih _ (hwf _ _ _ hmem) hs

theorem wf_foldl (seqs : List (List String)) (t : TaskTree) (h : Wf t) :
    Wf (List.foldl updateTree t seqs) := by
  induction seqs generalizing t with
  | nil => simpa using h
  | cons s ss ih => exact ih _ (wf_updateTree s t h)

theorem wf_buildTree (seqs : List (List String)) : Wf (buildTree seqs) :=
  wf_foldl seqs _ wf_mkNil

/-- Folding `update_tree` over many task lists: root-level count of `L`
counts the lists whose normalised path starts with `L`. -/
theorem countAt_foldl (seqs : List (List String)) (t : TaskTree) (L : String) :
    countAt (List.foldl updateTree t seqs) [L] =
      countAt t [L] + seqs.countP (fun s => alongPath [L] (normPath s)) := by
  induction seqs generalizing t with
  | nil => simp
  | cons s ss ih =>
    simp only [List.foldl_cons, ih, countAt_updateTree, List.countP_cons]
    by_cases hb : alongPath [L] (normPath s) = true
    · simp [hb]
      omega
    · simp [hb]

theorem countP_agree {α : Type} {p q : α → Bool} :
    ∀ {l : List α}, (∀ a ∈ l, p a = q a) → l.countP p = l.countP q := by
  intro l
  induction l with
  | nil => simp
  | cons a l ih =>
    intro h
    simp only [List.countP_cons, h a (List.mem_cons_self a l),
      ih (fun b hb => h b (List.mem_cons_of_mem _ hb))]

/-! ### Claims about the aggregator -/

/-- **C1.** Each `update_tree` call walks/creates the path whose keys are
the trimmed, lower-cased labels of its task list and increments exactly
the counts of the nodes on that path (the non-empty initial segments of
the normalised path) by one, leaving every other count untouched; an
empty task list leaves the tree completely unchanged; and aggregating
`["a","b"]` twice and `["a","c"]` once into the empty tree yields
`a.count = 3`, `a.children["b"].count = 2`, `a.children["c"].count = 1`. -/
theorem update_tree_increments_path :
    (∀ t : TaskTree, updateTree t [] = t) ∧
    (∀ (t : TaskTree) (tasks p : List String),
      countAt (updateTree t tasks) p =
        countAt t p +
          (if p ≠ [] ∧ alongPath p (normPath tasks) = true then 1 else 0)) ∧
    (countAt (buildTree [["a", "b"], ["a", "b"], ["a", "c"]]) ["a"] = 3 ∧
      countAt (buildTree [["a", "b"], ["a", "b"], ["a", "c"]]) ["a", "b"] = 2 ∧
      countAt (buildTree [["a", "b"], ["a", "b"], ["a", "c"]]) ["a", "c"] = 1) :=
  ⟨fun _ => rfl, fun t tasks p => countAt_updateTree tasks t p, ⟨rfl, rfl, rfl⟩⟩

/-- **C2.** When every input sequence is already trimmed and case-folded
(as the stated input contract requires), the root-level count of label
`L` in the aggregated tree equals the number of input sequences whose
first element is `L`. -/
theorem root_count_counts_heads (seqs : List (List String)) (L : String)
    (hnorm : ∀ s ∈ seqs, ∀ x ∈ s, normLabel x = x) :
    countAt (buildTree seqs) [L] = seqs.countP (fun s => s.head? == some L) := by
  rw [buildTree, countAt_foldl, countAt_mkNil, Nat.zero_add]
  apply countP_agree
  intro s hs
  cases s with
  | nil => simp [alongPath, normPath]
  | cons x xs =>
    have hx : normLabel x = x := hnorm _ hs _ (List.mem_cons_self _ _)
    simp only [normPath, List.map_cons, alongPath, hx, Bool.and_true, List.head?]
    by_cases h : L = x
    · subst h; simp
    · simp [h, Ne.symm h]

theorem root_count_counts_heads_witness :
    countAt (buildTree [["a", "b"], ["a", "b"], ["a", "c"]]) ["a"] =
      ([["a", "b"], ["a", "b"], ["a", "c"]] : List (List String)).countP
        (fun s => s.head? == some "a") :=
  root_count_counts_heads [["a", "b"], ["a", "b"], ["a", "c"]] "a" (by decide)

/-- **C10.** In every tree built from the empty tree by `update_tree`
calls, each node's count is at least the sum of its children's counts —
strictly stronger than the max-of-children invariant: each call that
increments a child also increments the parent in the same call. -/
theorem node_count_ge_children_sum (seqs : List (List String)) (p : List String)
    (c : Nat) (ch : TaskTree) (hs : subtreeAt (buildTree seqs) p = some (c, ch)) :
    rootSum ch ≤ c :=
  (wf_subtreeAt p _ (wf_buildTree seqs) c ch hs).1

theorem node_count_ge_children_sum_witness :
    rootSum (TaskTree.mk [("b", 1, TaskTree.mk [])]) ≤ 2 :=
  node_count_ge_children_sum [["a", "b"], ["a"]] ["a"] 2
    (TaskTree.mk [("b", 1, TaskTree.mk [])]) rfl

/-- **C4.** In every tree built from the empty tree by `update_tree`
calls, each node's count is at least the count of every single one of its
children. -/
theorem node_count_ge_child_count (seqs : List (List String)) (p : List String)
    (c : Nat) (ch : TaskTree) (hs : subtreeAt (buildTree seqs) p = some (c, ch))
    (lbl : String) : countAt ch [lbl] ≤ c := by
  obtain ⟨hsum, -⟩ := wf_subtreeAt p _ (wf_buildTree seqs) c ch hs
  obtain ⟨es⟩ := ch
  cases hl : lookupEntry es lbl with
  | none => simp [countAt, hl]
  | some q =>
    obtain ⟨ck, chk⟩ := q
    have hck : ck ≤ sumCounts es := mem_le_sumCounts (lookup_mem hl)
    simp only [rootSum, TaskTree.entries] at hsum
    simp [countAt, hl]
    omega

theorem node_count_ge_child_count_witness :
    countAt (TaskTree.mk [("b", 1, TaskTree.mk [])]) ["b"] ≤ 2 :=
  node_count_ge_child_count [["a", "b"], ["a"]] ["a"] 2
    (TaskTree.mk [("b", 1, TaskTree.mk [])]) rfl "b"

/-! ### Lemmas about the reporter -/

theorem subtreeAt_mkNil (p : List String) : subtreeAt (TaskTree.mk []) p = none := by
  cases p <;> simp [subtreeAt, lookupEntry]

/-- The line printed for a root-level node of the block uses the block's
parent count as denominator. -/
theorem mem_printEntries_lookup {es : List (String × Nat × TaskTree)} {lbl : String}
    {c : Nat} {ch : TaskTree} (h : lookupEntry es lbl = some (c, ch))
    (pc : Nat) (ind : String) :
    (ind, lbl, percOf c pc, c) ∈ printEntries es pc ind := by
  induction es with
  | nil => simp [lookupEntry] at h
  | cons e es ih =>
    obtain ⟨k0, c0, ch0⟩ := e
    obtain ⟨ces0⟩ := ch0
    by_cases h0 : k0 = lbl
    · subst h0
      simp only [lookupEntry, if_pos rfl, Option.some.injEq, Prod.mk.injEq] at h
      obtain ⟨rfl, -⟩ := h
      simp [printEntries]
    · simp only [lookupEntry, if_neg h0] at h
      simp only [printEntries, List.mem_cons, List.mem_append]
      exact Or.inr (Or.inr (ih h))

/-- Lines printed inside the children's block of a node are printed. -/
theorem mem_printEntries_child {es : List (String × Nat × TaskTree)} {lbl : String}
    {c1 : Nat} {ces1 : List (String × Nat × TaskTree)}
    (h : lookupEntry es lbl = some (c1, TaskTree.mk ces1)) (hne : ces1 ≠ [])
    {x : String × String × ℚ × Nat} (pc : Nat) (ind : String)
    (hx : x ∈ printEntries ces1 c1 (ind ++ "    - ")) :
    x ∈ printEntries es pc ind := by
  induction es with
  | nil => simp [lookupEntry] at h
  | cons e es ih =>
    obtain ⟨k0, c0, ch0⟩ := e
    obtain ⟨ces0⟩ := ch0
    by_cases h0 : k0 = lbl
    · subst h0
      simp only [lookupEntry, if_pos rfl, Option.some.injEq, Prod.mk.injEq,
        TaskTree.mk.injEq] at h
      obtain ⟨rfl, rfl⟩ := h
      simp only [printEntries, List.mem_cons, List.mem_append]
      refine Or.inr (Or.inl ?_)
      cases ces1 with
      | nil => exact absurd rfl hne
      | cons a l => simpa [List.isEmpty] using hx
    · simp only [lookupEntry, if_neg h0] at h
      simp only [printEntries, List.mem_cons, List.mem_append]
      exact Or.inr (Or.inr (ih h))

/-- Every node of the tree gets a printed line whose denominator is the
top-level parent count for depth-1 nodes and the parent node's count for
deeper nodes. -/
theorem mem_printEntries_of_subtreeAt :
    ∀ (q : List String) (es : List (String × Nat × TaskTree)) (pc : Nat)
      (ind lbl : String) (c : Nat) (ch : TaskTree),
      subtreeAt (TaskTree.mk es) (q ++ [lbl]) = some (c, ch) →
      ∃ ind',
        (ind', lbl, percOf c (if q = [] then pc else countAt (TaskTree.mk es) q), c)
          ∈ printEntries es pc ind := by
  intro q
  induction q with
  | nil =>
    intro es pc ind lbl c ch hs
    simp only [List.nil_append] at hs
    cases hl : lookupEntry es lbl with
    | none => simp [subtreeAt, hl] at hs
    | some q0 =>
      obtain ⟨c1, ch1⟩ := q0
      simp only [subtreeAt, hl, if_pos rfl, Option.some.injEq, Prod.mk.injEq] at hs
      obtain ⟨rfl, -⟩ := hs
      exact ⟨ind, by simpa using mem_printEntries_lookup hl pc ind⟩
  | cons k q' ih =>
    intro es pc ind lbl c ch hs
    have hnil : q' ++ [lbl] ≠ [] := by simp
    simp only [List.cons_append] at hs
    cases hl : lookupEntry es k with
    | none => simp [subtreeAt, hl] at hs
    | some q0 =>
      obtain ⟨c1, ch1⟩ := q0
      obtain ⟨ces1⟩ := ch1
      have hs' : subtreeAt (TaskTree.mk ces1) (q' ++ [lbl]) = some (c, ch) := by
        simpa [subtreeAt, hl, hnil] using hs
      have hne : ces1 ≠ [] := by
        intro hc
        subst hc
        rw [subtreeAt_mkNil] at hs'
        exact Option.noConfusion hs'
      obtain ⟨ind', hmem⟩ := ih ces1 c1 (ind ++ "    - ") lbl c ch hs'
      refine ⟨ind', ?_⟩
      have hden :
          (if (k :: q') = ([] : List String) then pc
            else countAt (TaskTree.mk es) (k :: q')) =
          (if q' = [] then c1 else countAt (TaskTree.mk ces1) q') := by
        simp [countAt, hl]
      rw [hden]
      exact mem_printEntries_child hl hne pc ind hmem

/-- **C3.** `print_tree` computes for each root-level node the percentage
`count / total * 100` and for each deeper node `count / parent.count *
100`; a zero denominator yields `0` instead of a division (first
conjunct), so no division by zero occurs. -/
theorem print_tree_percentages :
    (∀ c : Nat, percOf c 0 = 0) ∧
    (∀ (t : TaskTree) (total : Nat) (q : List String) (lbl : String) (c : Nat)
      (ch : TaskTree), subtreeAt t (q ++ [lbl]) = some (c, ch) →
      ∃ ind,
        (ind, lbl, percOf c (if q = [] then total else countAt t q), c)
          ∈ printTree t total "") := by
  constructor
  · intro c
    simp [percOf]
  · intro t total q lbl c ch hs
    obtain ⟨es⟩ := t
    simpa [printTree, TaskTree.entries] using
      mem_printEntries_of_subtreeAt q es total "" lbl c ch hs

theorem print_tree_percentages_witness :
    ∃ ind, (ind, "a", percOf 1 1, 1) ∈ printTree (buildTree [["a"]]) 1 "" := by
  simpa using
    print_tree_percentages.2 (buildTree [["a"]]) 1 [] "a" 1 (TaskTree.mk []) rfl

/-! ### Claims about recording a day -/

/-- **C5.** If the input at interval `K` trims and case-folds to
`"sleep"`, the loop records `["sleep"]` for interval `K` and every
remaining interval through the last slot of the day and stops: the result
is a closed form that consumes no input beyond index `K`. -/
theorem sleep_fills_rest (inputs : Nat → String) (K : Nat) (sched : List Entry)
    (hK : K < INTERVALS_PER_DAY)
    (hsleep : pyLower (pyStrip (inputs K)) = "sleep") :
    recordLoop inputs (List.range' K (INTERVALS_PER_DAY - K)) sched =
      sched ++ (List.range' K (INTERVALS_PER_DAY - K)).map
        (fun j => Entry.mk (timeSlot j) ["sleep"]) := by
  have h1 : INTERVALS_PER_DAY - K = (INTERVALS_PER_DAY - (K + 1)) + 1 := by
    simp only [INTERVALS_PER_DAY] at hK ⊢
    omega
  rw [h1]
  have h2 : List.range' K (INTERVALS_PER_DAY - (K + 1) + 1) =
      K :: List.range' (K + 1) (INTERVALS_PER_DAY - (K + 1)) := rfl
  rw [h2]
  simp [recordLoop, hsleep]

theorem sleep_fills_rest_witness :
    recordLoop (fun _ => "sleep") (List.range' 95 (INTERVALS_PER_DAY - 95)) [] =
      [] ++ (List.range' 95 (INTERVALS_PER_DAY - 95)).map
        (fun j => Entry.mk (timeSlot j) ["sleep"]) :=
  sleep_fills_rest (fun _ => "sleep") 95 [] (by decide) rfl

/-- The recording loop only ever appends to the schedule it was given. -/
theorem recordLoop_append (inputs : Nat → String) :
    ∀ (idxs : List Nat) (sched : List Entry),
      recordLoop inputs idxs sched = sched ++ recordLoop inputs idxs [] := by
  intro idxs
  induction idxs with
  | nil =>
    intro sched
    simp [recordLoop]
  | cons idx restIdx ih =>
    intro sched
    by_cases h1 : pyLower (pyStrip (inputs idx)) = "sleep"
    · simp [recordLoop, h1]
    · by_cases h2 : pyLower (pyStrip (inputs idx)) = "exit"
      · simp [recordLoop, h1, h2]
      · simp only [recordLoop, if_neg h1, if_neg h2, List.nil_append]
        conv_lhs => rw [ih]
        conv_rhs => rw [ih]
        simp

/-- Every entry the loop appends carries the time slot of one of the
interval indices it was asked to prompt for. -/
theorem recordLoop_slots (inputs : Nat → String) :
    ∀ (idxs : List Nat) (sched : List Entry) (e : Entry),
      e ∈ recordLoop inputs idxs sched →
      e ∈ sched ∨ ∃ j ∈ idxs, e.time_slot = timeSlot j := by
  intro idxs
  induction idxs with
  | nil =>
    intro sched e he
    exact Or.inl (by simpa [recordLoop] using he)
  | cons idx restIdx ih =>
    intro sched e he
    by_cases h1 : pyLower (pyStrip (inputs idx)) = "sleep"
    · simp only [recordLoop, if_pos h1, List.mem_append, List.mem_singleton,
        List.mem_map] at he
      rcases he with (he | he) | he
      · exact Or.inl he
      · subst he
        exact Or.inr ⟨idx, by simp⟩
      · obtain ⟨j, hj, rfl⟩ := he
        exact Or.inr ⟨j, by simp [hj]⟩
    · by_cases h2 : pyLower (pyStrip (inputs idx)) = "exit"
      · simp only [recordLoop, if_neg h1, if_pos h2] at he
        exact Or.inl he
      · simp only [recordLoop, if_neg h1, if_neg h2] at he
        rcases ih _ _ he with h | ⟨j, hj, hts⟩
        · rcases List.mem_append.mp h with h | h
          · exact Or.inl h
          · rw [List.mem_singleton] at h
            subst h
            exact Or.inr ⟨idx, by simp⟩
        · exact Or.inr ⟨j, List.mem_cons_of_mem _ hj, hts⟩

/-- **C6.** Re-running `record_day` on a day with `N` saved intervals
keeps the `N` saved entries unchanged, in order, as the first `N` entries
of the saved schedule, appends any new entries strictly after them, and
every new entry belongs to an interval index `≥ N` (prompting resumes at
interval `N + 1`, i.e. index `N`). -/
theorem record_day_resumes (inputs : Nat → String) (sched : List Entry) :
    recordDay (some sched) inputs =
      sched ++ recordLoop inputs
        (List.range' sched.length (INTERVALS_PER_DAY - sched.length)) [] ∧
    (∀ e ∈ recordLoop inputs
        (List.range' sched.length (INTERVALS_PER_DAY - sched.length)) [],
      ∃ j, sched.length ≤ j ∧ j < INTERVALS_PER_DAY ∧ e.time_slot = timeSlot j) := by
  constructor
  · simpa [recordDay] using
      recordLoop_append inputs
        (List.range' sched.length (INTERVALS_PER_DAY - sched.length)) sched
  · intro e he
    rcases recordLoop_slots inputs _ [] e he with h | ⟨j, hj, hts⟩
    · simp at h
    · rw [List.mem_range'_1] at hj
      refine ⟨j, hj.1, ?_, hts⟩
      have h2 := hj.2
      simp only [INTERVALS_PER_DAY] at h2 ⊢
      omega

theorem record_day_resumes_witness :
    recordDay (some [Entry.mk (timeSlot 0) ["a"]])
        (fun j => if j == 1 then "b" else "exit") =
      [Entry.mk (timeSlot 0) ["a"]] ++
        recordLoop (fun j => if j == 1 then "b" else "exit")
          (List.range' [Entry.mk (timeSlot 0) ["a"]].length
            (INTERVALS_PER_DAY - [Entry.mk (timeSlot 0) ["a"]].length)) [] ∧
    (∃ j, [Entry.mk (timeSlot 0) ["a"]].length ≤ j ∧ j < INTERVALS_PER_DAY ∧
      (Entry.mk (timeSlot 1) ["b"]).time_slot = timeSlot j) :=
  ⟨(record_day_resumes (fun j => if j == 1 then "b" else "exit")
      [Entry.mk (timeSlot 0) ["a"]]).1,
    (record_day_resumes (fun j => if j == 1 then "b" else "exit")
      [Entry.mk (timeSlot 0) ["a"]]).2 (Entry.mk (timeSlot 1) ["b"]) (by decide)⟩

/-! ### Claim about updating a day -/

theorem updateDayLoop_empty (inputs : Nat → String)
    (h : ∀ i, pyStrip (inputs i) = "") :
    ∀ (idx : Nat) (sched : List Entry), updateDayLoop inputs idx sched = sched := by
  intro idx sched
  induction sched generalizing idx with
  | nil => simp [updateDayLoop]
  | cons item rest ih => simp [updateDayLoop, h, ih]

/-- **C7.** Running `update_day` on a persisted schedule and answering
every prompt with input that strips to the empty string re-saves a
document with every interval's time slot and task labels unchanged. -/
theorem update_day_empty_keeps_schedule (d : DaySchedule) (inputs : Nat → String)
    (h : ∀ i, pyStrip (inputs i) = "") :
    updateDay inputs (some d) = some d := by
  simp [updateDay, updateDayLoop_empty inputs h]

theorem update_day_empty_keeps_schedule_witness :
    updateDay (fun _ => "")
        (some (DaySchedule.mk "2024-01-01" "07:00" [Entry.mk (timeSlot 0) ["work"]])) =
      some (DaySchedule.mk "2024-01-01" "07:00" [Entry.mk (timeSlot 0) ["work"]]) :=
  update_day_empty_keeps_schedule
    (DaySchedule.mk "2024-01-01" "07:00" [Entry.mk (timeSlot 0) ["work"]])
    (fun _ => "") (fun _ => rfl)

/-! ### Claims about period analysis -/

/-- **C8.** When zero intervals match the requested window — in
particular when the records directory is empty — `analyze_period`
reports no data and never reaches chart generation
(`create_visualizations` is only called on the report outcome). -/
theorem no_data_skips_chart (period : String) (days todayOrd : Nat)
    (files : List (String × List TaskField))
    (hp : periodDays period = some days)
    (hz : (scanFiles files ((todayOrd : Int) - ((days : Int) - 1)) (todayOrd : Int)).1 = 0) :
    analyzePeriod period todayOrd files = AnalyzeResult.noData ∧
    chartCalled (analyzePeriod period todayOrd files) = false ∧
    analyzePeriod period todayOrd [] = AnalyzeResult.noData := by
  have h1 : analyzePeriod period todayOrd files = AnalyzeResult.noData := by
    simp [analyzePeriod, hp, hz]
  have h2 : analyzePeriod period todayOrd [] = AnalyzeResult.noData := by
    simp [analyzePeriod, hp, scanFiles]
  exact ⟨h1, by simp [h1, chartCalled], h2⟩

theorem no_data_skips_chart_witness :
    analyzePeriod "week" 739000 [("hello.json", [TaskField.list ["a"]])] =
      AnalyzeResult.noData ∧
    chartCalled (analyzePeriod "week" 739000 [("hello.json", [TaskField.list ["a"]])]) =
      false ∧
    analyzePeriod "week" 739000 [] = AnalyzeResult.noData :=
  no_data_skips_chart "week" 7 739000 [("hello.json", [TaskField.list ["a"]])] rfl rfl

/-- **C9.** A file whose name is not a date-named `.json` record — either
the `".json"` suffix is missing or the rest of the name fails to parse as
a date — contributes nothing to the totals or the task tree, and the
scan (and hence the whole analysis) proceeds over the remaining files as
if the file were absent. -/
theorem malformed_files_skipped (lo hi : Int) (name : String) (items : List TaskField)
    (files1 files2 : List (String × List TaskField)) (period : String) (todayOrd : Nat)
    (hbad : strEndsWith name ".json" = false ∨ parseDate (dropExt5 name) = none) :
    scanFiles (files1 ++ (name, items) :: files2) lo hi =
      scanFiles (files1 ++ files2) lo hi ∧
    analyzePeriod period todayOrd (files1 ++ (name, items) :: files2) =
      analyzePeriod period todayOrd (files1 ++ files2) := by
  have hstep : ∀ (lo' hi' : Int) (acc : Nat × TaskTree),
      scanStep lo' hi' acc (name, items) = acc := by
    intro lo' hi' acc
    rcases hbad with h | h
    · simp [scanStep, h]
    · simp [scanStep, h]
  have hscan : ∀ (lo' hi' : Int),
      scanFiles (files1 ++ (name, items) :: files2) lo' hi' =
        scanFiles (files1 ++ files2) lo' hi' := by
    intro lo' hi'
    simp [scanFiles, List.foldl_append, List.foldl_cons, hstep]
  refine ⟨hscan lo hi, ?_⟩
  cases hp : periodDays period with
  | none => simp [analyzePeriod, hp]
  | some days => simp [analyzePeriod, hp, hscan]

theorem malformed_files_skipped_witness :
    scanFiles [("notes.json", [TaskField.list ["a"]])] 0 0 = scanFiles [] 0 0 ∧
    analyzePeriod "week" 5 [("notes.json", [TaskField.list ["a"]])] =
      analyzePeriod "week" 5 [] :=
  malformed_files_skipped 0 0 "notes.json" [TaskField.list ["a"]] [] [] "week" 5
    (Or.inr rfl)

end TimeTracker
